import Mathlib

/-!
Verification of the DR (Dynamic Range) meter in `src/main.rs`.

The numeric core of the program is embedded shallowly over `ℚ`:
Rust `f64` arithmetic is modelled as exact rational arithmetic, and the two
transcendental operations `f64::sqrt` and `f64::log10` are kept abstract as
function parameters `sqrt log10 : ℚ → ℚ` (every structural claim below holds
for all interpretations of these two functions).  Rust `f64::round` (round
half away from zero) is modelled by `rustRound`; `x as usize` on a
non-negative value is `Int.toNat`.  Rust division by zero on floats yields
NaN; in the `ℚ` model `x / 0 = 0`, and the places where this matters are
noted explicitly.
-/

/-- Model of Rust `f64::round`: round to the nearest integer, rounding
half-way cases away from zero.  For `0 ≤ q` this is `⌊q + 1/2⌋`, for `q < 0`
it is `⌈q - 1/2⌉`. -/
def rustRound (q : ℚ) : ℤ :=
  if 0 ≤ q then ⌊q + 1/2⌋ else ⌈q - 1/2⌉

/-- Rounding as worded in the spec: the nearest integer, with ties (fractional
part exactly 1/2) rounded away from zero. -/
def roundNearestTiesAway (q : ℚ) : ℤ :=
  if q - ⌊q⌋ < 1/2 then ⌊q⌋
  else if 1/2 < q - ⌊q⌋ then ⌊q⌋ + 1
  else if 0 ≤ q then ⌊q⌋ + 1 else ⌊q⌋

theorem rustRound_eq_roundNearestTiesAway (q : ℚ) :
    rustRound q = roundNearestTiesAway q := by
  unfold rustRound roundNearestTiesAway
  have h0 : (⌊q⌋ : ℚ) ≤ q := Int.floor_le q
  have h1 : q < ⌊q⌋ + 1 := Int.lt_floor_add_one q
  by_cases hq : 0 ≤ q
  · rw [if_pos hq]
    by_cases hf : q - ⌊q⌋ < 1/2
    · rw [if_pos hf]
      rw [Int.floor_eq_iff]
      constructor
      · linarith
      · linarith
    · push_neg at hf
      have hfl : ⌊q + 1/2⌋ = ⌊q⌋ + 1 := by
        rw [Int.floor_eq_iff]
        constructor
        · push_cast; linarith
        · push_cast; linarith
      rw [hfl, if_neg (by linarith), if_pos hq]
      split_ifs
      · rfl
      · rfl
  · rw [if_neg hq]
    push_neg at hq
    by_cases hf2 : 1/2 < q - ⌊q⌋
    · have hc : ⌈q - 1/2⌉ = ⌊q⌋ + 1 := by
        rw [Int.ceil_eq_iff]
        constructor
        · push_cast; linarith
        · push_cast; linarith
      rw [hc, if_neg (by linarith), if_pos hf2]
    · push_neg at hf2
      have hc : ⌈q - 1/2⌉ = ⌊q⌋ := by
        rw [Int.ceil_eq_iff]
        constructor
        · linarith
        · linarith
      rw [hc, if_neg (not_le.mpr hq)]
      split_ifs with hlt hgt
      · rfl
      · linarith
      · rfl

/-- `fn block_size_for_sample_rate(sample_rate: u32) -> usize`:
`(BLOCKSIZE_SECONDS * sample_rate as f64).round() as usize` with
`BLOCKSIZE_SECONDS = 3.0`. -/
def block_size_for_sample_rate (sample_rate : ℕ) : ℕ :=
  (rustRound (3 * (sample_rate : ℚ))).toNat

theorem block_size_for_sample_rate_eq (sample_rate : ℕ) :
    block_size_for_sample_rate sample_rate = 3 * sample_rate := by
  unfold block_size_for_sample_rate rustRound
  rw [if_pos (by positivity)]
  have hfl : ⌊3 * (sample_rate : ℚ) + 1/2⌋ = 3 * (sample_rate : ℤ) := by
    rw [Int.floor_eq_iff]
    constructor
    · push_cast; linarith
    · push_cast; linarith
  rw [hfl]
  omega

/-- `struct BlockStats { rms: f64, peak: f64 }` -/
structure BlockStats where
  rms : ℚ
  peak : ℚ
  deriving Repr, DecidableEq

/-- `fn compute_block_stats(samples: &[f64]) -> BlockStats`:
`rms = sqrt(sum(2*x*x)/n)` and `peak = fold(0.0, |a, x| a.max(x.abs()))`.
For empty input the Rust code computes `0.0/0.0 = NaN`; in the `ℚ` model the
division yields `0`. -/
def compute_block_stats (sqrt : ℚ → ℚ) (samples : List ℚ) : BlockStats :=
  { rms := sqrt ((samples.map (fun x => 2 * x * x)).sum / (samples.length : ℚ)),
    peak := samples.foldl (fun a x => max a |x|) 0 }

/-- `NTH_HIGHEST_PEAK: usize = 2` -/
def NTH_HIGHEST_PEAK : ℕ := 2

/-- `fn dr_for_channel(blocks: &[BlockStats]) -> f64`, translated clause by
clause from the source.  `UPMOST_BLOCKS_RATIO = 0.2` appears as `1/5`, the
saturating subtraction `total.saturating_sub(NTH_HIGHEST_PEAK)` is truncated
`ℕ` subtraction, and `.max(1)` on the rounded block count is `max _ 1`. -/
def dr_for_channel (sqrt log10 : ℚ → ℚ) (blocks : List BlockStats) : ℚ :=
  if blocks.isEmpty then 0
  else
    let total := blocks.length
    let rms_sorted := List.insertionSort (fun a b : ℚ => a ≤ b) (blocks.map BlockStats.rms)
    let peak_sorted := List.insertionSort (fun a b : ℚ => a ≤ b) (blocks.map BlockStats.peak)
    let peak_idx := total - NTH_HIGHEST_PEAK
    let peak_loud := peak_sorted.getD peak_idx 0
    let top_n := max (rustRound ((total : ℚ) * (1/5))).toNat 1
    let upmost_rms := rms_sorted.drop (total - top_n)
    let rms_loud := sqrt ((upmost_rms.map (fun r => r * r)).sum / (top_n : ℚ))
    if rms_loud ≤ 0 then 0 else 20 * log10 (peak_loud / rms_loud)

/-- The channel DR reducer as worded in the spec (claim C1): ascending sorts,
`peak_loud` at index `total.saturating_sub(2)`, `top_n = max(1, round(total *
0.2))`, and `rms_loud` computed from the last `top_n` elements of the
ascending RMS sequence (taken here as the first `top_n` of its reversal). -/
def dr_for_channel_spec (sqrt log10 : ℚ → ℚ) (blocks : List BlockStats) : ℚ :=
  if blocks = [] then 0
  else
    let total := blocks.length
    let rms_sorted := List.insertionSort (fun a b : ℚ => a ≤ b) (blocks.map BlockStats.rms)
    let peak_sorted := List.insertionSort (fun a b : ℚ => a ≤ b) (blocks.map BlockStats.peak)
    let peak_loud := peak_sorted.getD (total - 2) 0
    let top_n := max 1 (rustRound ((total : ℚ) * (1/5))).toNat
    let rms_loud := sqrt (((rms_sorted.reverse.take top_n).map (fun r => r * r)).sum / (top_n : ℚ))
    if rms_loud ≤ 0 then 0 else 20 * log10 (peak_loud / rms_loud)

theorem sum_sq_reverse_take (l : List ℚ) (n : ℕ) (f : ℚ → ℚ) :
    ((l.reverse.take n).map f).sum = ((l.drop (l.length - n)).map f).sum := by
  rw [List.take_reverse, List.map_reverse, List.sum_reverse]

/-- Claim C1: the channel DR reducer computes exactly the sorted-percentile
formula described in the spec: 0 on the empty sequence, otherwise `peak_loud`
at index `total.saturating_sub(2)` of the ascending peaks, `top_n = max(1,
round(total * 0.2))`, `rms_loud = sqrt(sum of squares of the last top_n
sorted RMS values / top_n)`, 0 if `rms_loud ≤ 0`, else
`20 * log10(peak_loud / rms_loud)`. -/
theorem dr_C1 (sqrt log10 : ℚ → ℚ) (blocks : List BlockStats) :
    dr_for_channel sqrt log10 blocks = dr_for_channel_spec sqrt log10 blocks := by
  unfold dr_for_channel dr_for_channel_spec NTH_HIGHEST_PEAK
  by_cases h : blocks = []
  · simp [h]
  · simp only [List.isEmpty_iff, h, if_neg, if_false]
    rw [sum_sq_reverse_take, List.length_insertionSort, List.length_map,
      Nat.max_comm]

theorem foldl_max_init_le (l : List ℚ) : ∀ a : ℚ, a ≤ l.foldl max a := by
  induction l with
  | nil => intro a; exact le_refl a
  | cons x l ih => intro a; exact le_trans (le_max_left a x) (ih (max a x))

theorem foldl_max_le_of_mem (l : List ℚ) : ∀ (a x : ℚ), x ∈ l → x ≤ l.foldl max a := by
  induction l with
  | nil => intro a x hx; cases hx
  | cons y l ih =>
    intro a x hx
    rcases List.mem_cons.mp hx with h | h
    · subst h
      exact le_trans (le_max_right a x) (foldl_max_init_le l _)
    · exact ih _ x h

theorem foldl_max_mem_or_init (l : List ℚ) :
    ∀ a : ℚ, l.foldl max a = a ∨ l.foldl max a ∈ l := by
  induction l with
  | nil => intro a; left; rfl
  | cons x l ih =>
    intro a
    simp only [List.foldl_cons]
    rcases ih (max a x) with h | h
    · rcases max_choice a x with hm | hm
      · left; rw [h, hm]
      · right; rw [h, hm]; exact List.mem_cons_self x l
    · right; exact List.mem_cons_of_mem x h

theorem foldl_max_zero_spec (l : List ℚ) (hne : l ≠ []) (hnn : ∀ x ∈ l, 0 ≤ x) :
    l.foldl max 0 ∈ l ∧ ∀ x ∈ l, x ≤ l.foldl max 0 := by
  refine ⟨?_, fun x hx => foldl_max_le_of_mem l 0 x hx⟩
  rcases foldl_max_mem_or_init l 0 with h | h
  · obtain ⟨y, l2, rfl⟩ := List.exists_cons_of_ne_nil hne
    have h1 : y ≤ (y :: l2).foldl max 0 :=
      foldl_max_le_of_mem _ 0 y (List.mem_cons_self _ _)
    have h2 : 0 ≤ y := hnn y (List.mem_cons_self _ _)
    rw [h] at h1 ⊢
    have hy : y = 0 := le_antisymm h1 h2
    rw [← hy]
    exact List.mem_cons_self _ _
  · exact h

/-- Claim C2: for every non-empty block, `compute_block_stats` returns
`rms = sqrt(mean over the samples of 2 * sample^2)` (with the factor of 2)
and `peak = the maximum over the samples of abs(sample)`, stated as: the peak
is one of the absolute values and bounds all of them. -/
theorem dr_C2 (sqrt : ℚ → ℚ) (samples : List ℚ) (h : samples ≠ []) :
    (compute_block_stats sqrt samples).rms
        = sqrt ((samples.map (fun x => 2 * x ^ 2)).sum / (samples.length : ℚ))
    ∧ (compute_block_stats sqrt samples).peak ∈ samples.map (fun x => |x|)
    ∧ ∀ x ∈ samples, |x| ≤ (compute_block_stats sqrt samples).peak := by
  have hfold : samples.foldl (fun a x => max a |x|) 0
      = (samples.map (fun x => |x|)).foldl max 0 := by
    rw [List.foldl_map]
  have hspec := foldl_max_zero_spec (samples.map (fun x => |x|))
    (by simpa using h)
    (by
      intro x hx
      rcases List.mem_map.mp hx with ⟨y, _, rfl⟩
      exact abs_nonneg y)
  refine ⟨?_, ?_, ?_⟩
  · unfold compute_block_stats
    rw [show (fun x : ℚ => 2 * x * x) = (fun x : ℚ => 2 * x ^ 2) from
      funext fun x => by ring]
  · unfold compute_block_stats
    dsimp only
    rw [hfold]
    exact hspec.1
  · intro x hx
    unfold compute_block_stats
    dsimp only
    rw [hfold]
    exact hspec.2 _ (List.mem_map_of_mem _ hx)

/-- `fn to_db(linear: f64) -> f64` (nested in `process_flac`):
`-100.0` below `1e-10`, else `20 * log10`. -/
def to_db (log10 : ℚ → ℚ) (linear : ℚ) : ℚ :=
  if linear < 1 / 10000000000 then -100 else 20 * log10 linear

/-- The numeric fields of `TrackResult` produced by the tail of
`process_flac` (lines 168-193). -/
structure TrackAgg where
  dr : ℤ
  peak_db : ℚ
  rms_db : ℚ
  deriving Repr, DecidableEq

/-- The track aggregation step of `process_flac` (lines 168-193): per-channel
DR values, their rounded mean, and the pooled overall peak / RMS in dB. -/
def track_aggregate (sqrt log10 : ℚ → ℚ) (ch_blocks : List (List BlockStats)) : TrackAgg :=
  let dr_values := ch_blocks.map (dr_for_channel sqrt log10)
  let dr_mean := dr_values.sum / (dr_values.length : ℚ)
  let all_blocks := ch_blocks.flatten
  let overall_peak := (all_blocks.map BlockStats.peak).foldl max 0
  let overall_rms :=
    sqrt ((all_blocks.map (fun b => b.rms * b.rms)).sum / ((max all_blocks.length 1 : ℕ) : ℚ))
  { dr := rustRound dr_mean,
    peak_db := to_db log10 overall_peak,
    rms_db := to_db log10 overall_rms }

/-- Claim C5: the integer track DR is the mean of the per-channel DR values
rounded to the nearest integer with ties away from zero, and a channel-DR
mean of 11.5 yields track DR 12. -/
theorem dr_C5 :
    (∀ (sqrt log10 : ℚ → ℚ) (ch_blocks : List (List BlockStats)), ch_blocks ≠ [] →
      (track_aggregate sqrt log10 ch_blocks).dr
        = roundNearestTiesAway ((ch_blocks.map (dr_for_channel sqrt log10)).sum
            / ((ch_blocks.map (dr_for_channel sqrt log10)).length : ℚ)))
    ∧ (∀ (sqrt log10 : ℚ → ℚ) (ch_blocks : List (List BlockStats)),
        (ch_blocks.map (dr_for_channel sqrt log10)).sum
            / ((ch_blocks.map (dr_for_channel sqrt log10)).length : ℚ) = 23/2 →
        (track_aggregate sqrt log10 ch_blocks).dr = 12) := by
  constructor
  · intro sqrt log10 chb _
    unfold track_aggregate
    exact rustRound_eq_roundNearestTiesAway _
  · intro sqrt log10 chb h
    unfold track_aggregate
    dsimp only
    rw [h]
    norm_num [rustRound]

theorem dr_C5_witness :
    (track_aggregate id id [[]]).dr
        = roundNearestTiesAway ((([[]] : List (List BlockStats)).map (dr_for_channel id id)).sum
            / ((([[]] : List (List BlockStats)).map (dr_for_channel id id)).length : ℚ))
    ∧ (track_aggregate (fun _ => 1) (fun _ => 23/40) [[⟨0, 0⟩]]).dr = 12 :=
  ⟨dr_C5.1 id id [[]] (by simp),
   dr_C5.2 (fun _ => 1) (fun _ => 23/40) [[⟨0, 0⟩]]
     (by
       norm_num [dr_for_channel, NTH_HIGHEST_PEAK, rustRound, List.insertionSort,
         List.orderedInsert])⟩

/-- Claim C6: `peak_db` and `rms_db` are computed over all blocks of all
channels pooled together - `overall_peak` is the maximum block peak (it is
one of the peaks and bounds them all), `overall_rms` is
`sqrt(mean of squared block RMS values)`, both converted through
`to_db(x) = -100 if x < 1e-10 else 20 * log10 x` - and the `dr` field is
determined by the per-channel DR values alone. -/
theorem dr_C6 (sqrt log10 : ℚ → ℚ) (ch_blocks : List (List BlockStats))
    (h1 : ch_blocks.flatten ≠ [])
    (h2 : ∀ b ∈ ch_blocks.flatten, 0 ≤ b.peak) :
    ((track_aggregate sqrt log10 ch_blocks).peak_db
        = to_db log10 ((ch_blocks.flatten.map BlockStats.peak).foldl max 0)
      ∧ (ch_blocks.flatten.map BlockStats.peak).foldl max 0
          ∈ ch_blocks.flatten.map BlockStats.peak
      ∧ ∀ b ∈ ch_blocks.flatten,
          b.peak ≤ (ch_blocks.flatten.map BlockStats.peak).foldl max 0)
    ∧ (track_aggregate sqrt log10 ch_blocks).rms_db
        = to_db log10 (sqrt ((ch_blocks.flatten.map (fun b => b.rms ^ 2)).sum
            / (ch_blocks.flatten.length : ℚ)))
    ∧ (track_aggregate sqrt log10 ch_blocks).dr
        = rustRound ((ch_blocks.map (dr_for_channel sqrt log10)).sum
            / ((ch_blocks.map (dr_for_channel sqrt log10)).length : ℚ)) := by
  have hmax := foldl_max_zero_spec (ch_blocks.flatten.map BlockStats.peak)
    (by simpa using h1)
    (by
      intro x hx
      rcases List.mem_map.mp hx with ⟨b, hb, rfl⟩
      exact h2 b hb)
  have hlen : max ch_blocks.flatten.length 1 = ch_blocks.flatten.length :=
    Nat.max_eq_left (List.length_pos.mpr h1)
  refine ⟨⟨?_, hmax.1, ?_⟩, ?_, ?_⟩
  · unfold track_aggregate
    rfl
  · intro b hb
    exact hmax.2 _ (List.mem_map_of_mem _ hb)
  · unfold track_aggregate
    dsimp only
    rw [hlen,
      show (fun b : BlockStats => b.rms * b.rms) = (fun b : BlockStats => b.rms ^ 2) from
        funext fun b => by ring]
  · unfold track_aggregate
    rfl

theorem dr_C6_witness :
    ((track_aggregate id id [[⟨1, 2⟩]]).peak_db
        = to_db id ((([[⟨1, 2⟩]] : List (List BlockStats)).flatten.map BlockStats.peak).foldl max 0)
      ∧ (([[⟨1, 2⟩]] : List (List BlockStats)).flatten.map BlockStats.peak).foldl max 0
          ∈ ([[⟨1, 2⟩]] : List (List BlockStats)).flatten.map BlockStats.peak
      ∧ ∀ b ∈ ([[⟨1, 2⟩]] : List (List BlockStats)).flatten,
          b.peak ≤ (([[⟨1, 2⟩]] : List (List BlockStats)).flatten.map BlockStats.peak).foldl max 0)
    ∧ (track_aggregate id id [[⟨1, 2⟩]]).rms_db
        = to_db id (id ((([[⟨1, 2⟩]] : List (List BlockStats)).flatten.map (fun b => b.rms ^ 2)).sum
            / (([[⟨1, 2⟩]] : List (List BlockStats)).flatten.length : ℚ)))
    ∧ (track_aggregate id id [[⟨1, 2⟩]]).dr
        = rustRound ((([[⟨1, 2⟩]] : List (List BlockStats)).map (dr_for_channel id id)).sum
            / ((([[⟨1, 2⟩]] : List (List BlockStats)).map (dr_for_channel id id)).length : ℚ)) :=
  dr_C6 id id [[⟨1, 2⟩]] (by simp)
    (by
      intro b hb
      simp only [List.flatten, List.mem_cons, List.not_mem_nil, or_false,
        List.mem_singleton, List.append_nil] at hb
      simp [hb])

/-- Claim C10: on a decoded file whose channels all yield zero blocks, the
aggregation is still well defined: every channel DR is 0, the track DR is 0,
and (the overall-RMS divisor being clamped to at least 1) overall peak and
RMS are 0, so `peak_db` and `rms_db` are both -100. -/
theorem dr_C10 (sqrt log10 : ℚ → ℚ) (ch_blocks : List (List BlockStats))
    (_hne : ch_blocks ≠ []) (hall : ∀ c ∈ ch_blocks, c = []) (hs : sqrt 0 = 0) :
    (∀ c ∈ ch_blocks, dr_for_channel sqrt log10 c = 0)
    ∧ (track_aggregate sqrt log10 ch_blocks).dr = 0
    ∧ (track_aggregate sqrt log10 ch_blocks).peak_db = -100
    ∧ (track_aggregate sqrt log10 ch_blocks).rms_db = -100 := by
  have hflat : ch_blocks.flatten = [] := by
    rw [List.flatten_eq_nil_iff]
    exact hall
  have hdrs : ∀ c ∈ ch_blocks, dr_for_channel sqrt log10 c = 0 := by
    intro c hc
    rw [hall c hc]
    rfl
  have hsum : (ch_blocks.map (dr_for_channel sqrt log10)).sum = 0 := by
    apply List.sum_eq_zero
    intro x hx
    rcases List.mem_map.mp hx with ⟨c, hc, rfl⟩
    exact hdrs c hc
  refine ⟨hdrs, ?_, ?_, ?_⟩
  · unfold track_aggregate
    dsimp only
    rw [hsum, zero_div]
    norm_num [rustRound]
  · unfold track_aggregate
    dsimp only
    rw [hflat]
    norm_num [to_db]
  · unfold track_aggregate
    dsimp only
    rw [hflat]
    norm_num [to_db, hs]

theorem dr_C10_witness :
    (∀ c ∈ ([[]] : List (List BlockStats)), dr_for_channel id id c = 0)
    ∧ (track_aggregate id id [[]]).dr = 0
    ∧ (track_aggregate id id [[]]).peak_db = -100
    ∧ (track_aggregate id id [[]]).rms_db = -100 :=
  dr_C10 id id [[]] (by simp) (by simp) rfl

/-- The sample normalizer of `process_flac`:
`let scale = (1i64 << (bits_per_sample - 1)) as f64` (line 126) applied as
`s as f64 / scale` (line 143). -/
def normalize_sample (sample : ℤ) (bits_per_sample : ℕ) : ℚ :=
  (sample : ℚ) / ((1 <<< (bits_per_sample - 1) : ℕ) : ℚ)

/-- Claim C8: for every raw signed integer sample and bit depth ≥ 1, the
normalizer returns exactly `sample / 2^(bit_depth - 1)`. -/
theorem dr_C8 (sample : ℤ) (bits_per_sample : ℕ) (_h : 1 ≤ bits_per_sample) :
    normalize_sample sample bits_per_sample
      = (sample : ℚ) / (2 ^ (bits_per_sample - 1) : ℚ) := by
  unfold normalize_sample
  rw [Nat.shiftLeft_eq, one_mul]
  push_cast
  rfl

theorem dr_C8_witness :
    1 ≤ 8 ∧ normalize_sample 64 8 = (64 : ℚ) / (2 ^ (8 - 1) : ℚ) :=
  ⟨by norm_num, dr_C8 64 8 (by norm_num)⟩

/-- The album summary of `write_report` (lines 278-282): album DR is the
rounded mean of the per-track integer DR values. -/
def album_dr (dr_values : List ℤ) : ℤ :=
  rustRound ((dr_values.sum : ℚ) / (dr_values.length : ℚ))

/-- The qualitative rating of `write_report` (lines 292-298): a guard cascade
on the album DR value. -/
def dr_rating (dr_album : ℤ) : String :=
  if 14 ≤ dr_album then "Excellent – wide dynamic range"
  else if 10 ≤ dr_album then "Good"
  else if 8 ≤ dr_album then "Acceptable"
  else if 6 ≤ dr_album then "Compressed"
  else "Heavily brick-walled / clipped"

/-- Claim C9: with at least one successful track, album DR is the rounded
(ties away from zero) mean of the per-track integer DR values, and the
rating is selected from the album DR by the fixed thresholds 14/10/8/6. -/
theorem dr_C9 (dr_values : List ℤ) (_h : dr_values ≠ []) :
    album_dr dr_values
        = roundNearestTiesAway ((dr_values.sum : ℚ) / (dr_values.length : ℚ))
    ∧ (∀ a : ℤ, 14 ≤ a → dr_rating a = "Excellent – wide dynamic range")
    ∧ (∀ a : ℤ, 10 ≤ a → a < 14 → dr_rating a = "Good")
    ∧ (∀ a : ℤ, 8 ≤ a → a < 10 → dr_rating a = "Acceptable")
    ∧ (∀ a : ℤ, 6 ≤ a → a < 8 → dr_rating a = "Compressed")
    ∧ (∀ a : ℤ, a < 6 → dr_rating a = "Heavily brick-walled / clipped") := by
  refine ⟨rustRound_eq_roundNearestTiesAway _, ?_, ?_, ?_, ?_, ?_⟩
  · intro a ha
    unfold dr_rating
    rw [if_pos ha]
  · intro a ha hb
    unfold dr_rating
    rw [if_neg (by omega), if_pos ha]
  · intro a ha hb
    unfold dr_rating
    rw [if_neg (by omega), if_neg (by omega), if_pos ha]
  · intro a ha hb
    unfold dr_rating
    rw [if_neg (by omega), if_neg (by omega), if_neg (by omega), if_pos ha]
  · intro a ha
    unfold dr_rating
    rw [if_neg (by omega), if_neg (by omega), if_neg (by omega), if_neg (by omega)]

theorem dr_C9_witness :
    album_dr [12]
        = roundNearestTiesAway ((([12] : List ℤ).sum : ℚ) / (([12] : List ℤ).length : ℚ))
    ∧ dr_rating 12 = "Good" :=
  ⟨(dr_C9 [12] (by simp)).1, (dr_C9 [12] (by simp)).2.2.1 12 (by norm_num) (by norm_num)⟩

/-- Claim C4 (code divergence): `compute_block_stats` has no error path.  On
an empty block it returns a plain `BlockStats` value - in Rust
`rms = sqrt(0.0/0.0) = NaN` and `peak = 0.0`; in the `ℚ` model the 0/0
division yields 0, so the result is `{ rms := sqrt 0, peak := 0 }` - rather
than failing with an `InvalidArgument` error as the spec prescribes. -/
theorem dr_C4_empty_block (sqrt : ℚ → ℚ) :
    compute_block_stats sqrt [] = { rms := sqrt ((0 : ℚ) / (0 : ℚ)), peak := 0 } := by
  unfold compute_block_stats
  norm_num

/-- The frame loop of `process_flac` (lines 137-165), per channel buffers.
Each list element of `frames` is one inter-channel frame of normalized
samples; a frame is pushed only when complete (`frame.len() == channels`,
line 148).  After each frame, if `ch_buffers[0].len() >= block_len` a full
block is drained from every channel; at end-of-stream (the `[]` case, where
`eof` is true and no complete frame was read) a final partial block is
drained if the buffer is non-empty, with
`take = if buf_len >= block_len { block_len } else { buf_len }`.
The result is the per-channel list of emitted sample blocks (the code maps
each drained block through `compute_block_stats`). -/
def segment_frames (block_len : ℕ) (bufs : List (List ℚ)) :
    List (List ℚ) → List (List (List ℚ))
  | [] =>
    let buf_len := (bufs.getD 0 []).length
    if block_len ≤ buf_len ∨ 0 < buf_len then
      let t := if block_len ≤ buf_len then block_len else buf_len
      bufs.map (fun b => [b.take t])
    else
      bufs.map (fun _ => ([] : List (List ℚ)))
  | frame :: rest =>
    let bufs2 :=
      if frame.length = bufs.length then
        List.zipWith (fun b s => b ++ [s]) bufs frame
      else bufs
    let buf_len := (bufs2.getD 0 []).length
    if block_len ≤ buf_len then
      List.zipWith (fun b blks => b.take block_len :: blks) bufs2
        (segment_frames block_len (bufs2.map (fun b => b.drop block_len)) rest)
    else
      segment_frames block_len bufs2 rest

/-- Single-channel view of the frame loop: the same control flow restricted
to one channel's buffer and sample stream. -/
def segment_channel (block_len : ℕ) (buf : List ℚ) : List ℚ → List (List ℚ)
  | [] =>
    if block_len ≤ buf.length ∨ 0 < buf.length then
      [buf.take (if block_len ≤ buf.length then block_len else buf.length)]
    else []
  | s :: rest =>
    let buf2 := buf ++ [s]
    if block_len ≤ buf2.length then
      buf2.take block_len :: segment_channel block_len (buf2.drop block_len) rest
    else
      segment_channel block_len buf2 rest

theorem segment_frames_length (block_len : ℕ) :
    ∀ (frames bufs : List (List ℚ)),
      (segment_frames block_len bufs frames).length = bufs.length := by
  intro frames
  induction frames with
  | nil =>
    intro bufs
    unfold segment_frames
    dsimp only
    split
    · simp
    · simp
  | cons frame rest ih =>
    intro bufs
    unfold segment_frames
    dsimp only
    by_cases hf : frame.length = bufs.length
    · rw [if_pos hf]
      have hlen2 : (List.zipWith (fun b s => b ++ [s]) bufs frame).length = bufs.length := by
        rw [List.length_zipWith, hf, Nat.min_self]
      split
      · rw [List.length_zipWith, ih, List.length_map, hlen2, Nat.min_self]
      · rw [ih, hlen2]
    · rw [if_neg hf]
      split
      · rw [List.length_zipWith, ih, List.length_map, Nat.min_self]
      · exact ih bufs

theorem getD_map_of_lt {α β : Type} (l : List α) (f : α → β) (ch : ℕ)
    (h : ch < l.length) (d : α) (d2 : β) :
    (l.map f).getD ch d2 = f (l.getD ch d) := by
  rw [List.getD_eq_getElem _ _ (by simpa using h), List.getD_eq_getElem _ _ h]
  simp

theorem getD_zipWith_of_lt {α β γ : Type} (l1 : List α) (l2 : List β) (g : α → β → γ)
    (ch : ℕ) (h1 : ch < l1.length) (h2 : ch < l2.length) (d1 : α) (d2 : β) (d3 : γ) :
    (List.zipWith g l1 l2).getD ch d3 = g (l1.getD ch d1) (l2.getD ch d2) := by
  rw [List.getD_eq_getElem _ _ (by rw [List.length_zipWith]; exact lt_min h1 h2),
    List.getD_eq_getElem _ _ h1, List.getD_eq_getElem _ _ h2]
  simp

theorem getD_mem_of_lt {α : Type} (l : List α) (ch : ℕ) (h : ch < l.length) (d : α) :
    l.getD ch d ∈ l := by
  rw [List.getD_eq_getElem _ _ h]
  exact List.getElem_mem h

theorem segment_frames_getD (block_len ch : ℕ) :
    ∀ (frames bufs : List (List ℚ)) (l : ℕ),
      ch < bufs.length →
      (∀ b ∈ bufs, b.length = l) →
      (∀ f ∈ frames, f.length = bufs.length) →
      (segment_frames block_len bufs frames).getD ch []
        = segment_channel block_len (bufs.getD ch [])
            (frames.map (fun f => f.getD ch 0)) := by
  intro frames
  induction frames with
  | nil =>
    intro bufs l hch hbufs _
    have h0pos : 0 < bufs.length := Nat.lt_of_le_of_lt (Nat.zero_le ch) hch
    have h0 : (bufs.getD 0 []).length = l := hbufs _ (getD_mem_of_lt _ _ h0pos _)
    have hc : (bufs.getD ch []).length = l := hbufs _ (getD_mem_of_lt _ _ hch _)
    unfold segment_frames segment_channel
    rw [List.map_nil]
    dsimp only
    rw [h0, hc]
    by_cases hcond : block_len ≤ l ∨ 0 < l
    · rw [if_pos hcond, if_pos hcond,
        getD_map_of_lt _ _ _ hch ([] : List ℚ)]
    · rw [if_neg hcond, if_neg hcond,
        getD_map_of_lt _ _ _ hch ([] : List ℚ)]
  | cons f rest ih =>
    intro bufs l hch hbufs hframes
    have hf : f.length = bufs.length := hframes f (List.mem_cons_self _ _)
    have hc : (bufs.getD ch []).length = l := hbufs _ (getD_mem_of_lt _ _ hch _)
    unfold segment_frames segment_channel
    rw [List.map_cons]
    dsimp only
    rw [if_pos hf]
    have hlen2 : (List.zipWith (fun b s => b ++ [s]) bufs f).length = bufs.length := by
      rw [List.length_zipWith, hf, Nat.min_self]
    have hmem2 : ∀ b ∈ List.zipWith (fun b s => b ++ [s]) bufs f, b.length = l + 1 := by
      intro b hb
      rcases List.mem_iff_getElem.mp hb with ⟨i, hi, rfl⟩
      rw [List.getElem_zipWith]
      rw [List.length_append, List.length_singleton,
        hbufs _ (List.getElem_mem _)]
    have h0pos2 : 0 < (List.zipWith (fun b s => b ++ [s]) bufs f).length := by
      rw [hlen2]
      exact Nat.lt_of_le_of_lt (Nat.zero_le ch) hch
    have h20 : ((List.zipWith (fun b s => b ++ [s]) bufs f).getD 0 []).length = l + 1 :=
      hmem2 _ (getD_mem_of_lt _ _ h0pos2 _)
    have hch2 : ch < (List.zipWith (fun b s => b ++ [s]) bufs f).length := by
      rw [hlen2]; exact hch
    have h2chval : (List.zipWith (fun b s => b ++ [s]) bufs f).getD ch []
        = bufs.getD ch [] ++ [f.getD ch 0] :=
      getD_zipWith_of_lt _ _ _ ch hch (by rw [hf]; exact hch) [] 0 []
    have hclen : (bufs.getD ch [] ++ [f.getD ch 0]).length = l + 1 := by
      rw [List.length_append, List.length_singleton, hc]
    rw [h20, hclen]
    by_cases hcond : block_len ≤ l + 1
    · rw [if_pos hcond, if_pos hcond]
      rw [getD_zipWith_of_lt _ _ _ ch hch2
        (by rw [segment_frames_length, List.length_map, hlen2]; exact hch)
        [] [] []]
      rw [h2chval]
      congr 1
      rw [ih (List.map (fun b => b.drop block_len) (List.zipWith (fun b s => b ++ [s]) bufs f))
        (l + 1 - block_len)
        (by rw [List.length_map, hlen2]; exact hch)
        (by
          intro b hb
          rcases List.mem_map.mp hb with ⟨b2, hb2, rfl⟩
          rw [List.length_drop, hmem2 _ hb2])
        (by
          intro f2 hf2
          rw [List.length_map, hlen2]
          exact hframes f2 (List.mem_cons_of_mem _ hf2))]
      rw [getD_map_of_lt _ _ _ hch2 ([] : List ℚ), h2chval]
    · rw [if_neg hcond, if_neg hcond]
      rw [ih (List.zipWith (fun b s => b ++ [s]) bufs f) (l + 1) hch2 hmem2
        (by
          intro f2 hf2
          rw [hlen2]
          exact hframes f2 (List.mem_cons_of_mem _ hf2))]
      rw [h2chval]

theorem mem_dropLast_cons {α : Type} (x : α) (L : List α) (b : α)
    (hb : b ∈ (x :: L).dropLast) : b = x ∨ b ∈ L.dropLast := by
  cases L with
  | nil => cases hb
  | cons y L2 =>
    rw [List.dropLast_cons₂] at hb
    rcases List.mem_cons.mp hb with h | h
    · exact Or.inl h
    · exact Or.inr h

theorem segment_channel_partition (block_len : ℕ) (hbl : 1 ≤ block_len) :
    ∀ (s buf : List ℚ), buf.length < block_len →
      (segment_channel block_len buf s).flatten = buf ++ s
      ∧ (∀ b ∈ (segment_channel block_len buf s).dropLast, b.length = block_len)
      ∧ (∀ b ∈ segment_channel block_len buf s, b.length ≤ block_len) := by
  intro s
  induction s with
  | nil =>
    intro buf hlen
    unfold segment_channel
    by_cases hb : buf = []
    · subst hb
      rw [if_neg (by simp; omega)]
      refine ⟨rfl, ?_, ?_⟩
      · intro b hb2; cases hb2
      · intro b hb2; cases hb2
    · have hpos : 0 < buf.length := List.length_pos.mpr hb
      rw [if_pos (Or.inr hpos), if_neg (not_le.mpr hlen)]
      refine ⟨?_, ?_, ?_⟩
      · rw [List.take_length]
        simp
      · intro b hb2; cases hb2
      · intro b hb2
        rcases List.mem_singleton.mp hb2 with rfl
        rw [List.take_length]
        omega
  | cons x rest ih =>
    intro buf hlen
    unfold segment_channel
    dsimp only
    have hlen2 : (buf ++ [x]).length = buf.length + 1 := by simp
    by_cases hc : block_len ≤ (buf ++ [x]).length
    · rw [if_pos hc]
      have htake : (buf ++ [x]).take block_len = buf ++ [x] := by
        rw [show block_len = (buf ++ [x]).length by rw [hlen2]; omega]
        exact List.take_length _
      have hdrop : (buf ++ [x]).drop block_len = [] := by
        rw [show block_len = (buf ++ [x]).length by rw [hlen2]; omega]
        exact List.drop_length _
      rw [htake, hdrop]
      obtain ⟨h1, h2, h3⟩ := ih [] (by simpa using hbl)
      refine ⟨?_, ?_, ?_⟩
      · rw [List.flatten_cons, h1]
        simp
      · intro b hb2
        rcases mem_dropLast_cons _ _ _ hb2 with h | h
        · rw [h, hlen2]
          omega
        · exact h2 b h
      · intro b hb2
        rcases List.mem_cons.mp hb2 with h | h
        · rw [h, hlen2]
          omega
        · exact h3 b h
    · rw [if_neg hc]
      obtain ⟨h1, h2, h3⟩ := ih (buf ++ [x]) (by rw [hlen2]; omega)
      refine ⟨?_, h2, h3⟩
      rw [h1]
      simp

/-- Claim C7: with complete frames and `sample_rate > 0`, the blocks emitted
for each channel partition that channel's sample stream exactly: their
concatenation in emission order is the channel's samples in order, every
block except possibly the last has length exactly
`block_len = round(3.0 * sample_rate)`, and no block exceeds `block_len`. -/
theorem dr_C7 (sample_rate channels ch : ℕ) (frames : List (List ℚ))
    (hsr : 0 < sample_rate) (hch : ch < channels)
    (hframes : ∀ f ∈ frames, f.length = channels) :
    ((segment_frames (block_size_for_sample_rate sample_rate)
        (List.replicate channels []) frames).getD ch []).flatten
        = frames.map (fun f => f.getD ch 0)
    ∧ (∀ b ∈ ((segment_frames (block_size_for_sample_rate sample_rate)
        (List.replicate channels []) frames).getD ch []).dropLast,
        b.length = block_size_for_sample_rate sample_rate)
    ∧ (∀ b ∈ (segment_frames (block_size_for_sample_rate sample_rate)
        (List.replicate channels []) frames).getD ch [],
        b.length ≤ block_size_for_sample_rate sample_rate) := by
  have hbl : 1 ≤ block_size_for_sample_rate sample_rate := by
    rw [block_size_for_sample_rate_eq]
    omega
  have hproj := segment_frames_getD (block_size_for_sample_rate sample_rate) ch frames
    (List.replicate channels []) 0
    (by rw [List.length_replicate]; exact hch)
    (by
      intro b hb
      rw [List.eq_of_mem_replicate hb]
      rfl)
    (by
      intro f hf
      rw [List.length_replicate]
      exact hframes f hf)
  have hgetD : (List.replicate channels ([] : List ℚ)).getD ch [] = [] := by
    rw [List.getD_eq_getElem _ _ (by rw [List.length_replicate]; exact hch)]
    simp
  rw [hproj, hgetD]
  obtain ⟨h1, h2, h3⟩ := segment_channel_partition (block_size_for_sample_rate sample_rate)
    hbl (frames.map (fun f => f.getD ch 0)) [] (by simpa using hbl)
  refine ⟨?_, h2, h3⟩
  rw [h1]
  rfl

theorem dr_C7_witness :
    ((segment_frames (block_size_for_sample_rate 1)
        (List.replicate 1 []) [[(1 : ℚ)], [2], [3], [4]]).getD 0 []).flatten
        = [[(1 : ℚ)], [2], [3], [4]].map (fun f => f.getD 0 0)
    ∧ (∀ b ∈ ((segment_frames (block_size_for_sample_rate 1)
        (List.replicate 1 []) [[(1 : ℚ)], [2], [3], [4]]).getD 0 []).dropLast,
        b.length = block_size_for_sample_rate 1)
    ∧ (∀ b ∈ (segment_frames (block_size_for_sample_rate 1)
        (List.replicate 1 []) [[(1 : ℚ)], [2], [3], [4]]).getD 0 [],
        b.length ≤ block_size_for_sample_rate 1) :=
  dr_C7 1 1 0 [[(1 : ℚ)], [2], [3], [4]] (by norm_num) (by norm_num)
    (by
      intro f hf
      fin_cases hf <;> rfl)

/-- Claim C3 (code divergence): there is no guard for `sample_rate = 0`.
`block_size_for_sample_rate 0 = 0`, and the frame loop run with
`block_len = 0` drains zero samples at every flush: on a one-frame
single-channel stream the channel emits two empty blocks and the sample is
dropped (in Rust each empty block then produces NaN statistics). -/
theorem dr_C3_no_guard :
    block_size_for_sample_rate 0 = 0
    ∧ (segment_frames 0 [[]] [[(1 : ℚ)]]).getD 0 [] = [[], []]
    ∧ ((segment_frames 0 [[]] [[(1 : ℚ)]]).getD 0 []).flatten = [] := by
  refine ⟨?_, ?_, ?_⟩
  · rw [block_size_for_sample_rate_eq]
  · rfl
  · rfl

theorem dr_C2_witness :
    (compute_block_stats id [(1 : ℚ)/2, -1]).rms
        = id ((([(1 : ℚ)/2, -1].map (fun x => 2 * x ^ 2)).sum)
            / (([(1 : ℚ)/2, -1] : List ℚ).length : ℚ))
    ∧ (compute_block_stats id [(1 : ℚ)/2, -1]).peak ∈ [(1 : ℚ)/2, -1].map (fun x => |x|)
    ∧ ∀ x ∈ [(1 : ℚ)/2, -1], |x| ≤ (compute_block_stats id [(1 : ℚ)/2, -1]).peak :=
  dr_C2 id [(1 : ℚ)/2, -1] (by simp)
